import Mathlib

/-!
Verification of the clip repository's ring-buffer / fixed-delay primitives
(scripts/ring_buff.py), the filter-generation pipeline
(scripts/generate_filters.py) and the build wrapper (build.py), as a shallow
embedding in Lean 4.

Python floats are modelled as rationals: none of the embedded operations
perform arithmetic on stored samples (the ring buffer only stores and
retrieves them, and the values in the repository's own tests are small
integers), so the model is exact on every behaviour the claims mention.
Python's `assert` failure is modelled as `Option.none`. Every method that
can mutate its object is embedded in state-passing style, returning the
post-state of the object together with its result.
-/

namespace Clip

/-- Embedding of `RingBuffer` from scripts/ring_buff.py: a backing list of
samples and a write cursor.  `__init__(max_size)` fills `max_size + 1` slots
with `0.0` and sets `write_head = 0`. -/
structure RingBuffer where
  buffer : List ℚ
  write_head : ℕ
  deriving DecidableEq, Repr

/-- `RingBuffer.__init__(max_size)`: buffer of `max_size + 1` zeros, cursor 0. -/
def RingBuffer.init (max_size : ℕ) : RingBuffer :=
  { buffer := List.replicate (max_size + 1) 0, write_head := 0 }

/-- `RingBuffer.push(x)`: advance the cursor circularly, overwrite that slot
with `x`, return `self` (the mutated buffer). -/
def RingBuffer.push (rb : RingBuffer) (x : ℚ) : RingBuffer :=
  let wh := (rb.write_head + 1) % rb.buffer.length
  { buffer := rb.buffer.set wh x, write_head := wh }

/-- `RingBuffer.tap(delay)` in state-passing style: `assert delay < len(buffer)`
(failure is `none`), then read slot `(write_head - delay) % len(buffer)`;
the object is returned unchanged alongside the sample.  The delay is an
integer because Python places no lower bound on it. -/
def RingBuffer.tapM (rb : RingBuffer) (delay : ℤ) : Option (ℚ × RingBuffer) :=
  if delay < (rb.buffer.length : ℤ) then
    let idx := (((rb.write_head : ℤ) - delay) % (rb.buffer.length : ℤ)).toNat
    some (rb.buffer.getD idx 0, rb)
  else
    none

/-- The sample returned by `tap`, without the (unchanged) post-state. -/
def RingBuffer.tap (rb : RingBuffer) (delay : ℤ) : Option ℚ :=
  (rb.tapM delay).map Prod.fst

/-- `RingBuffer.__getitem__(idx)`: sugar for `tap`. -/
def RingBuffer.getitem (rb : RingBuffer) (idx : ℤ) : Option (ℚ × RingBuffer) :=
  rb.tapM idx

/-- Push a whole sequence of samples, left to right. -/
def RingBuffer.pushAll (rb : RingBuffer) (xs : List ℚ) : RingBuffer :=
  xs.foldl RingBuffer.push rb

/-- Embedding of `FixedDelay` from scripts/ring_buff.py. -/
structure FixedDelay where
  buffer : RingBuffer
  delay : ℕ
  deriving DecidableEq, Repr

/-- `FixedDelay.__init__(delay)`: note the source passes `delay + 1` as the
ring buffer's `max_size`, so the backing store has `delay + 2` slots. -/
def FixedDelay.init (delay : ℕ) : FixedDelay :=
  { buffer := RingBuffer.init (delay + 1), delay := delay }

/-- `FixedDelay.step(x)`: push `x`, then `tap(self.delay)`; returns the
post-state and the tapped sample. -/
def FixedDelay.step (fd : FixedDelay) (x : ℚ) : FixedDelay × Option ℚ :=
  let b := fd.buffer.push x
  ({ fd with buffer := b }, b.tap (fd.delay : ℤ))

/-- Run `step` over a list of inputs, collecting the outputs in order. -/
def FixedDelay.runSteps (fd : FixedDelay) : List ℚ → FixedDelay × List (Option ℚ)
  | [] => (fd, [])
  | x :: xs =>
    let s := fd.step x
    let r := s.1.runSteps xs
    (r.1, s.2 :: r.2)

/-! ### Basic lemmas about the ring buffer -/

theorem RingBuffer.length_push (rb : RingBuffer) (x : ℚ) :
    (rb.push x).buffer.length = rb.buffer.length := by
  simp [RingBuffer.push]

theorem RingBuffer.length_pushAll (rb : RingBuffer) (xs : List ℚ) :
    (rb.pushAll xs).buffer.length = rb.buffer.length := by
  induction xs generalizing rb with
  | nil => rfl
  | cons x xs ih =>
    simp only [RingBuffer.pushAll, List.foldl_cons]
    rw [show List.foldl RingBuffer.push (rb.push x) xs = (rb.push x).pushAll xs from rfl,
      ih, RingBuffer.length_push]

theorem RingBuffer.length_init (M : ℕ) :
    (RingBuffer.init M).buffer.length = M + 1 := by
  simp [RingBuffer.init]

/-- Tapping a freshly initialised buffer yields the fill value `0` for any
delay below the capacity. -/
theorem RingBuffer.tap_init (M : ℕ) (d : ℤ) (hd : d < (M : ℤ) + 1) :
    (RingBuffer.init M).tap d = some 0 := by
  simp only [RingBuffer.tap, RingBuffer.tapM, RingBuffer.init, List.length_replicate]
  rw [if_pos (by exact_mod_cast hd)]
  simp [List.getD]

/-- When the delay is below the buffer length, `tap` succeeds and reads the
slot `(write_head - delay) mod len`. -/
theorem RingBuffer.tap_eq_of_lt (rb : RingBuffer) (d : ℤ)
    (h : d < (rb.buffer.length : ℤ)) :
    rb.tap d =
      some (rb.buffer.getD
        (((rb.write_head : ℤ) - d) % (rb.buffer.length : ℤ)).toNat 0) := by
  simp [RingBuffer.tap, RingBuffer.tapM, h]

/-- When the delay reaches the buffer length, the `assert` fires: `tap`
fails. -/
theorem RingBuffer.tap_eq_none_of_ge (rb : RingBuffer) (d : ℤ)
    (h : (rb.buffer.length : ℤ) ≤ d) :
    rb.tap d = none := by
  simp [RingBuffer.tap, RingBuffer.tapM, not_lt.mpr h]

/-- Subtracting before or after reducing the left operand modulo `n` is the
same. -/
theorem emod_sub_emod (a b n : ℤ) : (a % n - b) % n = (a - b) % n :=
  Int.ModEq.sub (Int.emod_emod_of_dvd a dvd_rfl) rfl

/-- Immediately after a push, delay `0` reads back the pushed sample. -/
theorem RingBuffer.tap_push_zero (rb : RingBuffer) (x : ℚ)
    (hlen : 0 < rb.buffer.length) :
    (rb.push x).tap 0 = some x := by
  have hwh : (rb.write_head + 1) % rb.buffer.length < rb.buffer.length :=
    Nat.mod_lt _ hlen
  rw [RingBuffer.tap_eq_of_lt _ _ (by rw [rb.length_push x]; exact_mod_cast hlen)]
  simp only [RingBuffer.push, List.length_set]
  have hidx : ((((rb.write_head + 1) % rb.buffer.length : ℕ) : ℤ) - 0) %
      (rb.buffer.length : ℤ) = (((rb.write_head + 1) % rb.buffer.length : ℕ) : ℤ) := by
    rw [sub_zero]
    exact Int.emod_eq_of_lt (Int.ofNat_nonneg _) (by exact_mod_cast hwh)
  rw [hidx, Int.toNat_natCast,
    List.getD_eq_getElem _ _ (by simpa using hwh), List.getElem_set, if_pos rfl]

/-- Pushing shifts every positive delay by one: after a push, delay `d + 1`
reads what delay `d` read before the push. -/
theorem RingBuffer.tap_push_succ (rb : RingBuffer) (x : ℚ) (d : ℕ)
    (hd : d + 1 < rb.buffer.length) :
    (rb.push x).tap ((d : ℤ) + 1) = rb.tap (d : ℤ) := by
  have hlen : 0 < rb.buffer.length := Nat.lt_of_le_of_lt (Nat.zero_le _) hd
  have hn0 : (0 : ℤ) < (rb.buffer.length : ℤ) := by exact_mod_cast hlen
  rw [RingBuffer.tap_eq_of_lt _ _ (by rw [rb.length_push x]; exact_mod_cast hd),
    RingBuffer.tap_eq_of_lt _ _ (by exact_mod_cast Nat.lt_of_succ_lt hd)]
  simp only [RingBuffer.push, List.length_set]
  have hidx : ((((rb.write_head + 1) % rb.buffer.length : ℕ) : ℤ) - ((d : ℤ) + 1)) %
        (rb.buffer.length : ℤ)
      = ((rb.write_head : ℤ) - (d : ℤ)) % (rb.buffer.length : ℤ) := by
    rw [Int.natCast_mod, emod_sub_emod]
    congr 1
    push_cast
    ring
  rw [hidx]
  have hnn : 0 ≤ ((rb.write_head : ℤ) - (d : ℤ)) % (rb.buffer.length : ℤ) :=
    Int.emod_nonneg _ (ne_of_gt hn0)
  have hjlt : (((rb.write_head : ℤ) - (d : ℤ)) % (rb.buffer.length : ℤ)).toNat
      < rb.buffer.length := by
    have := Int.emod_lt_of_pos ((rb.write_head : ℤ) - (d : ℤ)) hn0
    omega
  have hne : (rb.write_head + 1) % rb.buffer.length
      ≠ (((rb.write_head : ℤ) - (d : ℤ)) % (rb.buffer.length : ℤ)).toNat := by
    intro heq
    have heqz : ((rb.write_head + 1 : ℕ) : ℤ) % (rb.buffer.length : ℤ)
        = ((rb.write_head : ℤ) - (d : ℤ)) % (rb.buffer.length : ℤ) := by
      rw [← Int.natCast_mod, heq, Int.toNat_of_nonneg hnn]
    have hdvd : (rb.buffer.length : ℤ) ∣
        ((rb.write_head : ℤ) - (d : ℤ)) - ((rb.write_head + 1 : ℕ) : ℤ) :=
      Int.ModEq.dvd heqz
    have hdvd' : (rb.buffer.length : ℤ) ∣ ((d : ℤ) + 1) := by
      have hneg := (dvd_neg (α := ℤ)).mpr hdvd
      convert hneg using 1
      push_cast
      ring
    have := Int.le_of_dvd (by positivity) hdvd'
    omega
  rw [List.getD_eq_getElem _ _ (by simpa using hjlt), List.getD_eq_getElem _ _ hjlt,
    List.getElem_set, if_neg hne]

/-- Reading an appended list below the length of the left part reads the
left part. -/
theorem getD_append_of_lt (l₁ l₂ : List ℚ) (i : ℕ) (h : i < l₁.length) :
    (l₁ ++ l₂).getD i 0 = l₁.getD i 0 := by
  have h' : i < (l₁ ++ l₂).length := by simp; omega
  rw [List.getD_eq_getElem _ _ h', List.getD_eq_getElem _ _ h, List.getElem_append,
    dif_pos h]

/-- Reading a concatenation at the left part's length reads the appended
element. -/
theorem getD_concat_self (l : List ℚ) (x : ℚ) :
    (l ++ [x]).getD l.length 0 = x := by
  have h' : l.length < (l ++ [x]).length := by simp
  rw [List.getD_eq_getElem _ _ h', List.getElem_append, dif_neg (by omega)]
  simp

/-- The tap history invariant: after pushing `xs` into a fresh buffer of
capacity `M + 1`, `tap d` (for `d ≤ M`) reads the sample pushed `d` pushes
before the most recent one, or the fill value `0` when fewer than `d + 1`
pushes happened. -/
theorem RingBuffer.tap_pushAll_init (M : ℕ) (xs : List ℚ) (d : ℕ) (hd : d ≤ M) :
    ((RingBuffer.init M).pushAll xs).tap (d : ℤ) =
      some (if d < xs.length then xs.getD (xs.length - 1 - d) 0 else 0) := by
  induction xs using List.reverseRecOn generalizing d with
  | nil =>
    rw [show (RingBuffer.init M).pushAll [] = RingBuffer.init M from rfl,
      RingBuffer.tap_init M d (by exact_mod_cast Nat.lt_succ_of_le hd)]
    simp
  | append_singleton xs x ih =>
    rw [show (RingBuffer.init M).pushAll (xs ++ [x])
        = ((RingBuffer.init M).pushAll xs).push x from List.foldl_concat _ _ _ _]
    cases d with
    | zero =>
      rw [show ((0 : ℕ) : ℤ) = 0 from rfl, RingBuffer.tap_push_zero _ _
        (by rw [RingBuffer.length_pushAll, RingBuffer.length_init]; omega)]
      have hlt : 0 < (xs ++ [x]).length := by simp
      rw [if_pos hlt]
      have hix : (xs ++ [x]).length - 1 - 0 = xs.length := by simp
      rw [hix, getD_concat_self]
    | succ d' =>
      have hcast : ((d' + 1 : ℕ) : ℤ) = (d' : ℤ) + 1 := by push_cast; ring
      rw [hcast, RingBuffer.tap_push_succ _ _ _
          (by rw [RingBuffer.length_pushAll, RingBuffer.length_init]; omega),
        ih d' (by omega)]
      congr 1
      by_cases h : d' < xs.length
      · have hc : d' + 1 < (xs ++ [x]).length := by simp; omega
        rw [if_pos h, if_pos hc]
        have hix : (xs ++ [x]).length - 1 - (d' + 1) = xs.length - 1 - d' := by
          simp; omega
        rw [hix, getD_append_of_lt _ _ _ (by omega)]
      · have hc : ¬ (d' + 1 < (xs ++ [x]).length) := by simp; omega
        rw [if_neg h, if_neg hc]

/-! ### Lemmas about `FixedDelay` -/

/-- Pushing a single element is one fold step. -/
theorem RingBuffer.pushAll_cons (rb : RingBuffer) (x : ℚ) (xs : List ℚ) :
    rb.pushAll (x :: xs) = (rb.push x).pushAll xs := rfl

/-- The `j`-th output of a run of `step` calls is the tap, at the fixed
delay, of the buffer holding exactly the first `j + 1` inputs. -/
theorem FixedDelay.runSteps_outputs (fd : FixedDelay) (xs : List ℚ) :
    (fd.runSteps xs).2 = (List.range xs.length).map
      (fun j => (fd.buffer.pushAll (xs.take (j + 1))).tap (fd.delay : ℤ)) := by
  induction xs generalizing fd with
  | nil => rfl
  | cons x xs ih =>
    simp only [FixedDelay.runSteps, FixedDelay.step, List.length_cons,
      List.range_succ_eq_map, List.map_cons, List.map_map]
    rw [ih]
    congr 1

/-! ### The filter-design pipeline (scripts/generate_filters.py, build.py) -/

/-- The data carried by one filter specification in
scripts/generate_filters.py (`num_taps`, `band_freqs`, `band_gains`,
`weights`, `sample_rate`). -/
structure FilterSpecification where
  num_taps : ℤ
  band_edges : List ℚ
  band_gains : List ℚ
  band_weights : List ℚ
  sample_rate : ℚ
  deriving DecidableEq, Repr

/-- Validity of a four-element band-edge list against the Nyquist bound. -/
def validEdges : List ℚ → ℚ → Bool
  | [f0, f1, f2, f3], nyq =>
      decide (0 ≤ f0) && decide (f0 ≤ f1) && decide (f1 < f2) &&
      decide (f2 ≤ f3) && decide (f3 ≤ nyq)
  | _, _ => false

/-- Modelled from the spec: validation of a `FilterSpecification` is absent
from src/ — scripts/generate_filters.py hands its embedded `band_freqs`
constants straight to the external `dsp.remez` routine, which is where the
spec locates the rejection.  Per the spec's §3 invariant, the four edges
must satisfy `0 ≤ f0 ≤ f1 < f2 ≤ f3 ≤ sample_rate / 2` and the tap count
must be positive. -/
def FilterSpecification.valid (s : FilterSpecification) : Bool :=
  decide (0 < s.num_taps) && validEdges s.band_edges (s.sample_rate / 2)

/-- Modelled from the spec: the design pipeline checks its specification
before any numeric work and aborts with a configuration error on an invalid
one, emitting no output; the numeric design work (remez exchange, FFT) is
abstracted as `design` and is reached only after validation succeeds. -/
def designPipeline (design : FilterSpecification → List ℚ)
    (s : FilterSpecification) : Except String (List ℚ) :=
  if s.valid then Except.ok (design s) else Except.error "ConfigurationError"

/-- `valid` spelled out for a four-edge specification. -/
theorem valid_iff (s : FilterSpecification) (f0 f1 f2 f3 : ℚ)
    (hedges : s.band_edges = [f0, f1, f2, f3]) :
    s.valid = true ↔
      (0 < s.num_taps ∧ 0 ≤ f0 ∧ f0 ≤ f1 ∧ f1 < f2 ∧ f2 ≤ f3 ∧
        f3 ≤ s.sample_rate / 2) := by
  rw [FilterSpecification.valid, hedges]
  simp [validEdges, and_assoc]

/-- The child design script as the build wrapper can observe it: its exit
code and the text it wrote to stdout before exiting. -/
structure ChildRun where
  exit_code : ℕ
  stdout_text : String
  deriving DecidableEq, Repr

/-- Embedding of `generate_filters` from build.py (lines 133–136): the
artifact `src/dsp/filter_coefficients.rs` is opened with mode "w" —
truncating whatever was there — *before* the child starts; the child's
stdout is redirected into it; `subprocess.run` is called without
`check=True`, so the child's exit status is discarded and the wrapper
finishes with status 0.  The result is the artifact's new contents paired
with the wrapper's exit status. -/
def generate_filters (_oldArtifact : String) (child : ChildRun) : String × ℕ :=
  (child.stdout_text, 0)

/-- Embedding of `print_info` from scripts/generate_filters.py: two comment
lines showing the band edges normalised by the sample rate.  `fRepr`
abstracts Python's deterministic float-to-decimal-string formatting as a
pure function of the value. -/
def print_info (fRepr : ℚ → String) (band_freqs : List ℚ) (fs : ℚ) :
    List String :=
  let normalized := band_freqs.map (fun f => f / fs)
  ["/// pass-band: " ++ fRepr (normalized.getD 0 0) ++ ".."
      ++ fRepr (normalized.getD 1 0),
   "/// stop-band: " ++ fRepr (normalized.getD 2 0) ++ ".."
      ++ fRepr (normalized.getD 3 0)]

/-- Embedding of one per-filter emission block of
scripts/generate_filters.py (lines 64–70 resp. 96–102): the `print_info`
comment block, a `usize` length constant equal to `len(m)`, the array
header, one indented line per coefficient in order, the closing bracket
and the blank line of the trailing `print()`. -/
def emitCoefficientTable (fRepr : ℚ → String) (name : String) (m : List ℚ)
    (band_freqs : List ℚ) (fs : ℚ) : List String :=
  print_info fRepr band_freqs fs ++
    (("pub const " ++ name ++ "_LEN: usize = " ++ toString m.length ++ ";") ::
     ("pub const " ++ name ++ ": [f32; " ++ name ++ "_LEN] = [") ::
     (m.map (fun coeff => "    " ++ fRepr coeff ++ ",") ++ ["];", ""]))

/-! ### Claim theorems -/

/-- **C1**: after any `n ≥ 0` pushes `xs` into a `RingBuffer` built with
`maxDelay M` (capacity `C = M + 1`), for every delay `d ≤ M`, `tap d`
returns the value pushed exactly `d` pushes before the most recent push
when `d < n` (which, given `d ≤ M < C`, is exactly `d < min n C`), and the
initial fill value `0.0` when `d ≥ n`; in particular `tap 0` is the most
recent push. -/
theorem C1_ringBuffer_tap_history (M : ℕ) (xs : List ℚ) (d : ℕ) (hd : d ≤ M) :
    ((RingBuffer.init M).pushAll xs).tap (d : ℤ) =
      some (if d < xs.length then xs.getD (xs.length - 1 - d) 0 else 0) :=
  RingBuffer.tap_pushAll_init M xs d hd

/-- Witness for C1 at `M = 3`, pushes `[1,2,3,4,5]`, `d = 2`: the tap reads
the value pushed two pushes before the last one, namely `3`. -/
theorem C1_ringBuffer_tap_history_witness :
    2 ≤ 3 ∧
      (((RingBuffer.init 3).pushAll [1, 2, 3, 4, 5]).tap ((2 : ℕ) : ℤ) =
        some (if 2 < ([1, 2, 3, 4, 5] : List ℚ).length then
          ([1, 2, 3, 4, 5] : List ℚ).getD (([1, 2, 3, 4, 5] : List ℚ).length - 1 - 2) 0
        else 0)) :=
  ⟨by decide, C1_ringBuffer_tap_history 3 [1, 2, 3, 4, 5] 2 (by decide)⟩

/-- **C2**: running `FixedDelay D` over any input sequence `xs`, the `j`-th
output (0-based; the claim's 1-based `i` is `j + 1`) is `0.0` for the first
`D` calls (`j < D`, i.e. `i ≤ D`) and the input of call `i - D` afterwards
(`xs.getD (j - D)`).  Each `step x` is `push x` followed by `tap delay` by
definition of `FixedDelay.step`. -/
theorem C2_fixedDelay_step_sequence (D : ℕ) (xs : List ℚ) (j : ℕ)
    (hj : j < xs.length) :
    ((FixedDelay.init D).runSteps xs).2.getD j none =
      some (if j < D then 0 else xs.getD (j - D) 0) := by
  rw [FixedDelay.runSteps_outputs]
  rw [List.getD_eq_getElem _ _ (by simpa using hj), List.getElem_map,
    List.getElem_range]
  show ((RingBuffer.init (D + 1)).pushAll (xs.take (j + 1))).tap ((D : ℕ) : ℤ) = _
  rw [RingBuffer.tap_pushAll_init (D + 1) _ D (by omega)]
  have htl : (xs.take (j + 1)).length = j + 1 := by rw [List.length_take]; omega
  rw [htl]
  congr 1
  by_cases hD : j < D
  · rw [if_neg (by omega), if_pos hD]
  · rw [if_pos (by omega), if_neg hD]
    have h1 : j + 1 - 1 - D = j - D := by omega
    rw [h1]
    have h2 : j - D < (xs.take (j + 1)).length := by omega
    rw [List.getD_eq_getElem _ _ h2, List.getElem_take,
      List.getD_eq_getElem _ _ (by omega)]

/-- Witness for C2 at `D = 3`, inputs `[1,2,3,4,5]`, fifth call (`j = 4`):
the output is the input of call `5 - 3 = 2`, namely `2`. -/
theorem C2_fixedDelay_step_sequence_witness :
    4 < ([1, 2, 3, 4, 5] : List ℚ).length ∧
      (((FixedDelay.init 3).runSteps [1, 2, 3, 4, 5]).2.getD 4 none =
        some (if 4 < 3 then 0 else ([1, 2, 3, 4, 5] : List ℚ).getD (4 - 3) 0)) :=
  ⟨by decide, C2_fixedDelay_step_sequence 3 [1, 2, 3, 4, 5] 4 (by decide)⟩

/-- **C3 (amended)**: `tap d` fails fast (`none`, the embedded assertion
failure) exactly when `d ≥ C`; for every `d < C` — including every negative
`d`, which the source's `assert delay < len(self.buffer)` does not reject —
it succeeds and returns the sample stored at `(write_head - d) mod C`. -/
theorem C3_tap_contract (rb : RingBuffer) (d : ℤ) :
    (rb.tap d = none ↔ (rb.buffer.length : ℤ) ≤ d) ∧
      (d < (rb.buffer.length : ℤ) →
        rb.tap d = some (rb.buffer.getD
          (((rb.write_head : ℤ) - d) % (rb.buffer.length : ℤ)).toNat 0)) := by
  refine ⟨⟨fun h => ?_, RingBuffer.tap_eq_none_of_ge rb d⟩,
    RingBuffer.tap_eq_of_lt rb d⟩
  by_contra hlt
  rw [RingBuffer.tap_eq_of_lt _ _ (not_le.mp hlt)] at h
  exact Option.noConfusion h

/-- Witness for C3's amended statement: with capacity 4, `tap 5` fails while
`tap 2` succeeds with the stored sample. -/
theorem C3_tap_contract_witness :
    (RingBuffer.init 3).tap 5 = none ∧ (RingBuffer.init 3).tap 2 = some 0 := by
  constructor
  · exact ((C3_tap_contract (RingBuffer.init 3) 5).1).mpr (by decide)
  · have h := (C3_tap_contract (RingBuffer.init 3) 2).2 (by decide)
    rw [h]
    decide

/-- Counterexample to C3 as stated: a negative delay does *not* fail fast —
`tap (-1)` on a fresh buffer of capacity 4 passes the assertion and returns
a sample (`0`), because the source only asserts `delay < len(buffer)`. -/
theorem C3_counterexample :
    (-1 : ℤ) < 0 ∧ (RingBuffer.init 3).tap (-1) ≠ none ∧
      (RingBuffer.init 3).tap (-1) = some 0 := by
  refine ⟨by decide, ?_, ?_⟩ <;> decide

/-- **C9 (amended)**: `FixedDelay D` owns exactly one `RingBuffer`,
constructed by passing `delay + 1` as `max_size`, hence with capacity
`D + 2` (not `D + 1` as the claim states); the stored `delay` equals `D` at
construction and is never changed by `step`. -/
theorem C9_fixedDelay_structure (D : ℕ) :
    (FixedDelay.init D).buffer.buffer.length = D + 2 ∧
      (FixedDelay.init D).delay = D ∧
      ∀ (fd : FixedDelay) (x : ℚ), ((fd.step x).1).delay = fd.delay := by
  refine ⟨?_, rfl, fun fd x => rfl⟩
  simp [FixedDelay.init, RingBuffer.init]

/-- Counterexample to C9 as stated: the ring buffer owned by `FixedDelay 3`
has capacity (backing-store length) `5`, not `3 + 1 = 4`. -/
theorem C9_counterexample :
    ¬ ((FixedDelay.init 3).buffer.buffer.length = 3 + 1) := by decide

/-- **C10**: for any in-range delay, `tap` (in its state-passing embedding
`tapM`) succeeds and returns the object unchanged — same backing buffer,
same length, same cursor — and `__getitem__` is literally `tap`. -/
theorem C10_tap_is_pure (rb : RingBuffer) (d : ℤ)
    (h : d < (rb.buffer.length : ℤ)) :
    (∃ v, rb.tapM d = some (v, rb)) ∧
      (∀ v s, rb.tapM d = some (v, s) →
        s.buffer = rb.buffer ∧ s.write_head = rb.write_head) ∧
      rb.getitem d = rb.tapM d := by
  refine ⟨?_, fun v s hs => ?_, rfl⟩
  · exact ⟨rb.buffer.getD (((rb.write_head : ℤ) - d) % (rb.buffer.length : ℤ)).toNat 0,
      by simp [RingBuffer.tapM, h]⟩
  · simp only [RingBuffer.tapM, if_pos h, Option.some.injEq, Prod.mk.injEq] at hs
    rw [← hs.2]
    exact ⟨rfl, rfl⟩

/-- Witness for C10 at a concrete buffer and delay. -/
theorem C10_tap_is_pure_witness :
    (1 : ℤ) < ((RingBuffer.init 3).buffer.length : ℤ) ∧
      (∃ v, (RingBuffer.init 3).tapM 1 = some (v, RingBuffer.init 3)) :=
  ⟨by decide, (C10_tap_is_pure (RingBuffer.init 3) 1 (by decide)).1⟩

/-- **C4**: a specification whose four band edges are non-monotonic or
outside the Nyquist range is rejected by the (spec-modelled) design
pipeline as a configuration error: no design work runs and no output is
produced, whatever the abstracted numeric stage would have computed. -/
theorem C4_invalid_spec_rejected (design : FilterSpecification → List ℚ)
    (s : FilterSpecification) (f0 f1 f2 f3 : ℚ)
    (hedges : s.band_edges = [f0, f1, f2, f3])
    (hbad : ¬ (0 ≤ f0 ∧ f0 ≤ f1 ∧ f1 < f2 ∧ f2 ≤ f3 ∧ f3 ≤ s.sample_rate / 2)) :
    designPipeline design s = Except.error "ConfigurationError" := by
  have hval : s.valid = false := by
    cases hv : s.valid with
    | false => rfl
    | true => exact absurd ((valid_iff s f0 f1 f2 f3 hedges).mp hv).2 hbad
  simp [designPipeline, hval]

/-- Witness for C4 at the claim's example `band_edges = [0, 100, 50, 200]`
(non-monotonic: the pass-band upper edge 100 exceeds the stop-band lower
edge 50). -/
theorem C4_invalid_spec_rejected_witness :
    ({ num_taps := 127, band_edges := [0, 100, 50, 200], band_gains := [1, 0],
       band_weights := [1, 1], sample_rate := 92100 } :
      FilterSpecification).band_edges = [0, 100, 50, 200] ∧
      designPipeline (fun _ => [])
        { num_taps := 127, band_edges := [0, 100, 50, 200],
          band_gains := [1, 0], band_weights := [1, 1], sample_rate := 92100 }
        = Except.error "ConfigurationError" :=
  ⟨rfl, C4_invalid_spec_rejected (fun _ => []) _ 0 100 50 200 rfl (by decide)⟩

/-- **C5** (evidence for the code bug): run the embedded build.py
`generate_filters` wrapper when the child design script fails (non-zero
exit) after emitting only a header line.  The wrapper nevertheless finishes
with status `0`, and the artifact no longer holds its previous contents —
it has been truncated and overwritten with the child's incomplete output —
contradicting the claim on both counts. -/
theorem C5_wrapper_masks_failure :
    (generate_filters "stale coefficient table"
        ⟨1, "/// Generated with scripts/generate_filters.py\n"⟩).2 = 0 ∧
      (generate_filters "stale coefficient table"
          ⟨1, "/// Generated with scripts/generate_filters.py\n"⟩).1
        ≠ "stale coefficient table" := by
  exact ⟨rfl, by decide⟩

/-- **C7**: for a coefficient table `m` with band edges `[f0, f1, f2, f3]`
and sample rate `fs`, the emitted block is exactly: a comment stating the
normalised pass-band `f0/fs..f1/fs` and stop-band `f2/fs..f3/fs`, a named
length constant whose value is `len(m)`, and a named fixed-size array whose
element lines are the values of `m` in order (then the closing bracket and
a blank line). -/
theorem C7_emission_layout (fRepr : ℚ → String) (name : String) (m : List ℚ)
    (f0 f1 f2 f3 fs : ℚ) :
    emitCoefficientTable fRepr name m [f0, f1, f2, f3] fs =
      ["/// pass-band: " ++ fRepr (f0 / fs) ++ ".." ++ fRepr (f1 / fs),
       "/// stop-band: " ++ fRepr (f2 / fs) ++ ".." ++ fRepr (f3 / fs),
       "pub const " ++ name ++ "_LEN: usize = " ++ toString m.length ++ ";",
       "pub const " ++ name ++ ": [f32; " ++ name ++ "_LEN] = ["]
      ++ m.map (fun coeff => "    " ++ fRepr coeff ++ ",")
      ++ ["];", ""] := by
  simp [emitCoefficientTable, print_info]

/-- **C8**: coefficient emission is deterministic — two runs on equal
inputs (same formatter, name, table, band edges and sample rate) produce
byte-identical output: the emission depends on nothing but its inputs. -/
theorem C8_emission_deterministic (fRepr : ℚ → String)
    (nameA nameB : String) (mA mB bfA bfB : List ℚ) (fsA fsB : ℚ)
    (hn : nameA = nameB) (hm : mA = mB) (hb : bfA = bfB) (hf : fsA = fsB) :
    emitCoefficientTable fRepr nameA mA bfA fsA
      = emitCoefficientTable fRepr nameB mB bfB fsB := by
  rw [hn, hm, hb, hf]

/-- Witness for C8: two identical concrete runs agree. -/
theorem C8_emission_deterministic_witness :
    ("A" : String) = "A" ∧
      emitCoefficientTable (fun q => toString q.num) "A" [1, 2] [0, 1, 1, 2] 4
        = emitCoefficientTable (fun q => toString q.num) "A" [1, 2] [0, 1, 1, 2] 4 :=
  ⟨rfl, C8_emission_deterministic (fun q => toString q.num)
    "A" "A" [1, 2] [1, 2] [0, 1, 1, 2] [0, 1, 1, 2] 4 4 rfl rfl rfl rfl⟩

end Clip
